import Mathlib

/-!
Verification of the stochastic-process sampler: fractional Gaussian noise
and fractional Brownian motion generated by the circulant-embedding method.

The embedding follows the source files:
* `src/lib.rs` — the `Process` and `Stationary` traits with their derived
  `var` methods;
* `src/gaussian.rs` — the `circulant_embedding` engine;
* `src/gaussian/fractional.rs` — `Motion` and the step-parameterized
  `Noise` with their `sample` operations and covariances;
* `src/gaussian/fractional/noise.rs` — the unit-step `Noise` and
  `NoisePath`.

Machine floats are modelled as real numbers (`powf` is `Real.rpow`,
`sqrt` is `Real.sqrt`).  The two external collaborators are modelled as
follows: the chirp transform (`czt::forward`) is an arbitrary parameter of
type `Transform`, constrained only where the output-length contract is
needed; the random source is a stream `g : ℕ → ℝ` of standard-normal
draws together with a cursor that every sampling operation threads and
advances, so that the order in which draws are consumed is explicit.  A
Rust `assert!` failure (a panic) is modelled by the result `none`.
-/

namespace Stochastic

/-- The spectral tolerance of the engine's debug assertions (`EPSILON` in
`circulant_embedding`, `src/gaussian.rs`). -/
noncomputable def EPSILON : ℝ := 1e-10

/-- Modelled from the spec: the complex-number collaborator's construction
from polar form, `c64::from_polar(magnitude, angle)`. -/
noncomputable def from_polar (r theta : ℝ) : ℂ := ⟨r * Real.cos theta, r * Real.sin theta⟩

/-- The rotation factor `chirp!(m)` of `circulant_embedding`: the `m`-th
root of unity at angle `-2π/m`. -/
noncomputable def chirp (m : ℕ) : ℂ := from_polar 1 (-2 * Real.pi / (m : ℝ))

/-- Modelled from the spec: the external random-draw collaborator yields
independent standard-normal values on demand in a fixed call order, and a
draw from a Gaussian distribution with mean `mu` and standard deviation
`sigma` maps one standard-normal value `x` to `mu + sigma * x`. -/
def gaussianSample (mu sigma x : ℝ) : ℝ := mu + sigma * x

/-- The shape of the external chirp-transform collaborator
(`czt::forward`): input sequence, length, rotation factor, scale. -/
abbrev Transform := List ℂ → ℕ → ℂ → ℂ → List ℂ

/-- The output-length contract the spec imposes on the external transform:
the result has exactly the requested length. -/
def TransformContract (forward : Transform) : Prop :=
  ∀ input m rot sc, (forward input m rot sc).length = m

namespace gaussian

/-- One iteration of the buffer-filling loop of `circulant_embedding`
(`src/gaussian.rs`): `data[i] = cov(i); data[m - i] = data[i]`. -/
def fillStep (m : ℕ) (cov : ℕ → ℝ) (d : List ℝ) (i : ℕ) : List ℝ :=
  let d := d.set i (cov i)
  d.set (m - i) (d.getD i 0)

/-- The real buffer of `circulant_embedding` just before the first
transform: `m = (1 + n) + (1 + n) - 2` zeros, then `data[0] = cov(0)` and
the loop over `i` in `1..=n` (`src/gaussian.rs`). -/
def buildBuffer (cov : ℕ → ℝ) (n : ℕ) : List ℝ :=
  let m := (1 + n) + (1 + n) - 2
  let data := (List.replicate m (0 : ℝ)).set 0 (cov 0)
  (List.range' 1 n).foldl (fillStep m cov) data

/-- The randomization loop of `circulant_embedding` (`src/gaussian.rs`):
for each entry in order, the debug assertions on the spectrum, then
`sigma = sqrt(max(re, 0) * scale)` and the entry is replaced by
`(sigma * gaussian(), sigma * gaussian())`, consuming two draws from the
stream `g` starting at the cursor.  A failed assertion aborts (`none`),
as the Rust panic does. -/
noncomputable def randomize (debug : Bool) (g : ℕ → ℝ) (scale : ℝ) :
    List ℂ → ℕ → Option (List ℂ) × ℕ
  | [], p => (some [], p)
  | e :: rest, p =>
    if debug = true ∧ ¬ (e.re > -EPSILON ∧ |e.im| < EPSILON) then (none, p)
    else
      let sigma := Real.sqrt (max e.re 0 * scale)
      match randomize debug g scale rest (p + 2) with
      | (some tail, q) => (some (⟨sigma * g p, sigma * g (p + 1)⟩ :: tail), q)
      | (none, q) => (none, q)

/-- The circulant-embedding engine (`circulant_embedding`,
`src/gaussian.rs`), parametric over the external transform and the
standard-normal draw stream `g` with cursor `p`.  `debug` mirrors
`cfg!(debug_assertions)`. -/
noncomputable def circulant_embedding (forward : Transform) (debug : Bool)
    (cov : ℕ → ℝ) (n : ℕ) (g : ℕ → ℝ) (p : ℕ) : Option (List ℂ) × ℕ :=
  let m := (1 + n) + (1 + n) - 2
  let data := buildBuffer cov n
  let eigen := forward (data.map (fun x => (x : ℂ))) m (chirp m) ⟨1, 0⟩
  let scale := 1 / ((2 * n : ℕ) : ℝ)
  match randomize debug g scale eigen p with
  | (some rnd, q) => (some (forward rnd m (chirp m) ⟨1, 0⟩), q)
  | (none, q) => (none, q)

/-- The eigenvalue sequence of the embedding: the result of the first
transform call of `circulant_embedding` on the covariance buffer. -/
noncomputable def eigenvalues (forward : Transform) (cov : ℕ → ℝ) (n : ℕ) : List ℂ :=
  let m := (1 + n) + (1 + n) - 2
  forward ((buildBuffer cov n).map (fun x => (x : ℂ))) m (chirp m) ⟨1, 0⟩

end gaussian

namespace fractional

/-- A fractional Brownian motion (`Motion`, `src/gaussian/fractional.rs`). -/
structure Motion where
  hurst : ℝ

/-- A fractional Gaussian noise parameterized by a physical step
(`Noise`, `src/gaussian/fractional.rs`). -/
structure Noise where
  hurst : ℝ
  step : ℝ

/-- `Stationary::cov` for `Noise` (`src/gaussian/fractional.rs`). -/
noncomputable def Noise.cov (self : Noise) (delta : ℕ) : ℝ :=
  let delta : ℝ := (delta : ℝ)
  let power := 2 * self.hurst
  let var := self.step ^ power
  0.5 * var * ((delta + 1) ^ power - 2 * delta ^ power + |delta - 1| ^ power)

/-- `Stationary::var`, the default method of `lib.rs`:
`var() = cov(zero distance)`. -/
noncomputable def Noise.var (self : Noise) : ℝ := Noise.cov self 0

/-- `Noise::sample` (`src/gaussian/fractional.rs`). -/
noncomputable def Noise.sample (forward : Transform) (debug : Bool) (self : Noise)
    (points : ℕ) (g : ℕ → ℝ) (p : ℕ) : Option (List ℝ) × ℕ :=
  match points with
  | 0 => (some [], p)
  | 1 => (some [gaussianSample 0 (Real.sqrt (Noise.var self)) (g p)], p + 1)
  | _ =>
    let n := points - 1
    match gaussian.circulant_embedding forward debug (Noise.cov self) n g p with
    | (some data, q) => (some ((data.take points).map Complex.re), q)
    | (none, q) => (none, q)

/-- One iteration of `Motion::sample`'s cumulative-sum loop
(`src/gaussian/fractional.rs`): `data[i] += data[i - 1]`. -/
def cumStep (d : List ℝ) (i : ℕ) : List ℝ := d.set i (d.getD i 0 + d.getD (i - 1) 0)

/-- `Motion::sample` (`src/gaussian/fractional.rs`): a `0.0` origin, a
fractional-noise increment path of length `points - 1`, then the in-place
running sum over indices `2..points`. -/
noncomputable def Motion.sample (forward : Transform) (debug : Bool) (self : Motion)
    (points : ℕ) (step : ℝ) (g : ℕ → ℝ) (p : ℕ) : Option (List ℝ) × ℕ :=
  match points with
  | 0 => (some [], p)
  | 1 => (some [0], p)
  | _ =>
    match Noise.sample forward debug ⟨self.hurst, step⟩ (points - 1) g p with
    | (some noise, q) =>
      (some ((List.range' 2 (points - 2)).foldl cumStep ((0 : ℝ) :: noise)), q)
    | (none, q) => (none, q)

/-- `Process::cov` for `Motion` (`src/gaussian/fractional.rs`). -/
noncomputable def Motion.cov (self : Motion) (t s : ℝ) : ℝ :=
  let power := 2 * self.hurst
  0.5 * (t ^ power + s ^ power - |t - s| ^ power)

/-- `Process::var`, the default method of `lib.rs`: `var(i) = cov(i, i)`. -/
noncomputable def Motion.var (self : Motion) (t : ℝ) : ℝ := Motion.cov self t t

end fractional

namespace fractional.noise

/-- A fractional Gaussian noise (`Noise`,
`src/gaussian/fractional/noise.rs`). -/
structure Noise where
  hurst : ℝ

/-- `Stationary::cov` for `Noise` (`src/gaussian/fractional/noise.rs`). -/
noncomputable def Noise.cov (self : Noise) (tau : ℕ) : ℝ :=
  let tau : ℝ := (tau : ℝ)
  let power := 2 * self.hurst
  0.5 * ((tau + 1) ^ power - 2 * tau ^ power + |tau - 1| ^ power)

/-- A sample path of a fractional Gaussian noise (`NoisePath`,
`src/gaussian/fractional/noise.rs`). -/
structure NoisePath where
  position : ℕ
  data : List ℝ

/-- `NoisePath::new` (`src/gaussian/fractional/noise.rs`): `count = 0`
yields the empty path, `count = 1` draws one standard-normal value, and
`count ≥ 2` invokes the engine with `n = count - 1` and scales the real
parts of the first `count` entries by `(1 / n)^hurst`.  Aborts (`none`)
when the engine aborts. -/
noncomputable def NoisePath.new (forward : Transform) (debug : Bool) (self : Noise)
    (count : ℕ) (g : ℕ → ℝ) (p : ℕ) : Option NoisePath × ℕ :=
  match count with
  | 0 => (some ⟨0, []⟩, p)
  | 1 => (some ⟨0, [gaussianSample 0 1 (g p)]⟩, p + 1)
  | _ =>
    let n := count - 1
    let scale := (1 / (n : ℝ)) ^ self.hurst
    match gaussian.circulant_embedding forward debug (Noise.cov self) n g p with
    | (some data, q) => (some ⟨0, (data.take count).map (fun pt => scale * pt.re)⟩, q)
    | (none, q) => (none, q)

/-- `Noise::sample` (`src/gaussian/fractional/noise.rs`), delegating to
`NoisePath::new`. -/
noncomputable def Noise.sample (forward : Transform) (debug : Bool) (self : Noise)
    (count : ℕ) (g : ℕ → ℝ) (p : ℕ) : Option NoisePath × ℕ :=
  NoisePath.new forward debug self count g p

end fractional.noise

namespace spec

/-- The spec's covariance formula for fractional Gaussian noise (§4.1):
`0.5 * ((lag+1)^{2H} − 2 lag^{2H} + |lag−1|^{2H})`. -/
noncomputable def fractionalNoiseCov (lag : ℕ) (H : ℝ) : ℝ :=
  0.5 * (((lag : ℝ) + 1) ^ (2 * H) - 2 * (lag : ℝ) ^ (2 * H) + |(lag : ℝ) - 1| ^ (2 * H))

/-- The spec's description of the sample-path operation for `count ≥ 2`
(§4.3): take the real part of the first `count` entries of the engine's
output and multiply each by the scale factor `(1 / n)^H`, `n = count - 1`. -/
noncomputable def samplePathOfEngine (H : ℝ) (count : ℕ) (engineOut : List ℂ) : List ℝ :=
  let n := count - 1
  (engineOut.take count).map (fun z => (1 / (n : ℝ)) ^ H * z.re)

/-- The spec's description of the randomization step (§4.2 step 5), with
the draw positions explicit: for index `i` in increasing order,
`sigma_i = sqrt(max(re eigen_i, 0) / m)` and the entry becomes
`(sigma_i * g(p + 2i), sigma_i * g(p + 2i + 1))` — index-major,
real part first, then imaginary part. -/
noncomputable def randomizedEntries (m : ℕ) (eigen : List ℂ) (g : ℕ → ℝ) (p : ℕ) : List ℂ :=
  (List.range eigen.length).map (fun i =>
    let sigma := Real.sqrt (max (eigen.getD i 0).re 0 / (m : ℝ))
    (⟨sigma * g (p + 2 * i), sigma * g (p + 2 * i + 1)⟩ : ℂ))

end spec

/-- Element after `set` at the written index. -/
theorem set_getD_same {α : Type} (l : List α) (i : ℕ) (v d : α) (h : i < l.length) :
    (l.set i v).getD i d = v := by
  rw [List.getD_eq_getElem?_getD, List.getElem?_set_eq_of_lt v h]
  rfl

/-- Element after `set` at another index. -/
theorem set_getD_other {α : Type} (l : List α) (i j : ℕ) (v d : α) (h : i ≠ j) :
    (l.set i v).getD j d = l.getD j d := by
  rw [List.getD_eq_getElem?_getD, List.getElem?_set_ne h, ← List.getD_eq_getElem?_getD]

/-- The randomization loop with the assertions disabled: it succeeds, the
cursor advances by exactly two positions per entry, and entry `i` holds
`(sigma_i * g(p + 2i), sigma_i * g(p + 2i + 1))`. -/
theorem randomize_false_parts (g : ℕ → ℝ) (scale : ℝ) :
    ∀ (e : List ℂ) (p : ℕ),
      ∃ out, gaussian.randomize false g scale e p = (some out, p + 2 * e.length)
        ∧ out.length = e.length
        ∧ ∀ i, i < e.length → out.getD i 0 =
            ⟨Real.sqrt (max (e.getD i 0).re 0 * scale) * g (p + 2 * i),
             Real.sqrt (max (e.getD i 0).re 0 * scale) * g (p + 2 * i + 1)⟩ := by
  intro e
  induction e with
  | nil =>
    intro p
    refine ⟨[], by simp [gaussian.randomize], rfl, ?_⟩
    intro i hi
    simp at hi
  | cons x rest ih =>
    intro p
    obtain ⟨out, hout, hlen, hpt⟩ := ih (p + 2)
    refine ⟨(⟨Real.sqrt (max x.re 0 * scale) * g p,
              Real.sqrt (max x.re 0 * scale) * g (p + 1)⟩ : ℂ) :: out, ?_, ?_, ?_⟩
    · simp only [gaussian.randomize, Bool.false_eq_true, false_and, if_false, hout]
      simp only [Prod.mk.injEq, List.length_cons]
      exact ⟨by trivial, by omega⟩
    · simp [hlen]
    · intro i hi
      match i with
      | 0 => simp
      | j + 1 =>
        simp only [List.getD_cons_succ]
        rw [hpt j (by simpa using hi)]
        have e1 : p + 2 + 2 * j = p + 2 * (j + 1) := by omega
        rw [e1]

/-- The randomization loop with the assertions enabled aborts whenever some
entry violates the spectral tolerance. -/
theorem randomize_true_none (g : ℕ → ℝ) (scale : ℝ) :
    ∀ (e : List ℂ) (p : ℕ) (x : ℂ), x ∈ e →
      (x.re ≤ -EPSILON ∨ EPSILON ≤ |x.im|) →
      (gaussian.randomize true g scale e p).1 = none := by
  intro e
  induction e with
  | nil =>
    intro p x hx
    exact absurd hx (List.not_mem_nil x)
  | cons y rest ih =>
    intro p x hx hbad
    simp only [gaussian.randomize]
    split
    · rfl
    · next hc =>
      have hok : y.re > -EPSILON ∧ |y.im| < EPSILON := by
        by_contra hn
        exact hc ⟨by trivial, hn⟩
      have hxrest : x ∈ rest := by
        rcases List.mem_cons.mp hx with rfl | h
        · rcases hbad with h | h
          · exact absurd hok.1 (by linarith)
          · exact absurd hok.2 (by linarith)
        · exact h
      have h1 := ih (p + 2) x hxrest hbad
      rcases hr : gaussian.randomize true g scale rest (p + 2) with ⟨o, q⟩
      rw [hr] at h1
      cases o with
      | none => rfl
      | some tail => simp at h1

/-- Claim C3: for every lag and every Hurst exponent in (0,1), the
fractional-Gaussian-noise covariance returns exactly
`0.5 * ((lag+1)^{2H} - 2 lag^{2H} + |lag-1|^{2H})`; the step-parameterized
variant agrees at the spec's unit-step covariance model. -/
theorem noise_cov_formula (H : ℝ) (lag : ℕ) (h0 : 0 < H) (h1 : H < 1) :
    fractional.noise.Noise.cov ⟨H⟩ lag = spec.fractionalNoiseCov lag H
  ∧ fractional.Noise.cov ⟨H, 1⟩ lag = spec.fractionalNoiseCov lag H := by
  constructor
  · rfl
  · simp only [fractional.Noise.cov, spec.fractionalNoiseCov, Real.one_rpow]
    ring

theorem noise_cov_formula_witness :
    (0 : ℝ) < 1 / 2 ∧ (1 / 2 : ℝ) < 1
  ∧ (fractional.noise.Noise.cov ⟨1 / 2⟩ 3 = spec.fractionalNoiseCov 3 (1 / 2)
     ∧ fractional.Noise.cov ⟨1 / 2, 1⟩ 3 = spec.fractionalNoiseCov 3 (1 / 2)) :=
  ⟨by norm_num, by norm_num, noise_cov_formula (1 / 2) 3 (by norm_num) (by norm_num)⟩

/-- Claim C8: for every Hurst exponent in (0,1) and every index t ≥ 0, the
fractional-motion variance `cov(t, t)` equals `t^{2H}`, and at `t = 0` it
equals exactly 0. -/
theorem motion_variance (H t : ℝ) (h0 : 0 < H) (h1 : H < 1) (ht : 0 ≤ t) :
    fractional.Motion.var ⟨H⟩ t = t ^ (2 * H) ∧ fractional.Motion.var ⟨H⟩ 0 = 0 := by
  have hp : (2 : ℝ) * H ≠ 0 := by positivity
  constructor
  · simp only [fractional.Motion.var, fractional.Motion.cov, sub_self, abs_zero,
      Real.zero_rpow hp]
    ring
  · simp only [fractional.Motion.var, fractional.Motion.cov, sub_self, abs_zero,
      Real.zero_rpow hp]
    ring

theorem motion_variance_witness :
    (0 : ℝ) < 1 / 2 ∧ (1 / 2 : ℝ) < 1 ∧ (0 : ℝ) ≤ 4
  ∧ (fractional.Motion.var ⟨1 / 2⟩ 4 = (4 : ℝ) ^ (2 * (1 / 2 : ℝ))
     ∧ fractional.Motion.var ⟨1 / 2⟩ 0 = 0) :=
  ⟨by norm_num, by norm_num, by norm_num,
   motion_variance (1 / 2) 4 (by norm_num) (by norm_num) (by norm_num)⟩

/-- Claim C7: sampling fractional noise with count = 0 yields the empty
path; count = 1 yields exactly one value drawn from the zero-mean Gaussian
with standard deviation `sqrt(var())`, consuming a single draw, for every
transform parameter alike (so the embedding engine is never invoked);
fractional motion with points = 1 yields exactly `[0.0]`. -/
theorem boundary_cases (forward : Transform) (debug : Bool) (g : ℕ → ℝ) (p : ℕ)
    (self : fractional.Noise) (mo : fractional.Motion) (st : ℝ) :
    fractional.Noise.sample forward debug self 0 g p = (some [], p)
  ∧ fractional.Noise.sample forward debug self 1 g p
      = (some [gaussianSample 0 (Real.sqrt (fractional.Noise.var self)) (g p)], p + 1)
  ∧ fractional.Motion.sample forward debug mo 1 st g p = (some [0], p) :=
  ⟨rfl, rfl, rfl⟩

/-- Claim C1: for count ≥ 2, the sample-path operation of fractional
Gaussian noise invokes the engine with n = count - 1, takes the real part
of the first count output entries, and multiplies each by the scale factor
`(1/n)^H` (the spec-side `samplePathOfEngine`); an engine abort
propagates. -/
theorem sample_path_adapter (forward : Transform) (debug : Bool) (H : ℝ)
    (count : ℕ) (g : ℕ → ℝ) (p : ℕ) (h2 : 2 ≤ count) :
    fractional.noise.NoisePath.new forward debug ⟨H⟩ count g p =
      match gaussian.circulant_embedding forward debug (fractional.noise.Noise.cov ⟨H⟩)
          (count - 1) g p with
      | (some data, q) => (some ⟨0, spec.samplePathOfEngine H count data⟩, q)
      | (none, q) => (none, q) := by
  obtain ⟨k, rfl⟩ : ∃ k, count = k + 2 := ⟨count - 2, by omega⟩
  rfl

theorem sample_path_adapter_witness :
    fractional.noise.NoisePath.new (fun input m rot sc => List.replicate m 1) false
        ⟨1 / 2⟩ 2 (fun k => 0) 0 =
      match gaussian.circulant_embedding (fun input m rot sc => List.replicate m 1) false
          (fractional.noise.Noise.cov ⟨1 / 2⟩) (2 - 1) (fun k => 0) 0 with
      | (some data, q) => (some ⟨0, spec.samplePathOfEngine (1 / 2) 2 data⟩, q)
      | (none, q) => (none, q) :=
  sample_path_adapter (fun input m rot sc => List.replicate m 1) false (1 / 2) 2
    (fun k => 0) 0 (by norm_num)

/-- The randomization loop consumes draws only through the stream
positions it is given: streams that agree on the consumed window produce
the same result. -/
theorem randomize_ext (debug : Bool) (scale : ℝ) (g₁ g₂ : ℕ → ℝ) :
    ∀ (e : List ℂ) (p : ℕ), (∀ k, k < 2 * e.length → g₁ (p + k) = g₂ (p + k)) →
      gaussian.randomize debug g₁ scale e p = gaussian.randomize debug g₂ scale e p := by
  intro e
  induction e with
  | nil =>
    intro p h
    simp [gaussian.randomize]
  | cons y rest ih =>
    intro p h
    have h0 : g₁ p = g₂ p := by simpa using h 0 (by simp only [List.length_cons]; omega)
    have h1 : g₁ (p + 1) = g₂ (p + 1) := h 1 (by simp only [List.length_cons]; omega)
    have hrec := ih (p + 2) (fun k hk => by
      have e1 : p + 2 + k = p + (k + 2) := by omega
      rw [e1]
      exact h (k + 2) (by simp only [List.length_cons]; omega))
    simp only [gaussian.randomize]
    rw [hrec, h0, h1]

/-- Claim C9: the engine is deterministic in its draw stream: two runs
whose streams agree on the `2m` consumed positions produce identical
outputs (exact equality in the real-number model). -/
theorem embedding_deterministic (forward : Transform) (debug : Bool) (cov : ℕ → ℝ)
    (n : ℕ) (g₁ g₂ : ℕ → ℝ) (p : ℕ) (hF : TransformContract forward)
    (h : ∀ k, k < 2 * ((1 + n) + (1 + n) - 2) → g₁ (p + k) = g₂ (p + k)) :
    gaussian.circulant_embedding forward debug cov n g₁ p
      = gaussian.circulant_embedding forward debug cov n g₂ p := by
  simp only [gaussian.circulant_embedding]
  have hE : (forward ((gaussian.buildBuffer cov n).map (fun x => (x : ℂ)))
      ((1 + n) + (1 + n) - 2) (chirp ((1 + n) + (1 + n) - 2)) ⟨1, 0⟩).length
      = (1 + n) + (1 + n) - 2 := hF _ _ _ _
  have hagree : ∀ k, k < 2 * (forward ((gaussian.buildBuffer cov n).map (fun x => (x : ℂ)))
      ((1 + n) + (1 + n) - 2) (chirp ((1 + n) + (1 + n) - 2)) ⟨1, 0⟩).length →
      g₁ (p + k) = g₂ (p + k) := by
    intro k hk
    rw [hE] at hk
    exact h k hk
  rw [randomize_ext debug (1 / ((2 * n : ℕ) : ℝ)) g₁ g₂ _ p hagree]

theorem embedding_deterministic_witness :
    gaussian.circulant_embedding (fun input m rot sc => List.replicate m 0) false
        (fun k => 1) 1 (fun k => 0) 0
      = gaussian.circulant_embedding (fun input m rot sc => List.replicate m 0) false
        (fun k => 1) 1 (fun k => if k < 100 then 0 else 1) 0 :=
  embedding_deterministic (fun input m rot sc => List.replicate m 0) false (fun k => 1) 1
    (fun k => 0) (fun k => if k < 100 then 0 else 1) 0
    (fun input m rot sc => List.length_replicate m 0)
    (fun k hk => by
      have hk100 : k < 100 := by omega
      simp [hk100])

/-- Claim C5: in the randomization step, entry i (in increasing index
order) becomes `(sigma_i * g1, sigma_i * g2)` with
`sigma_i = sqrt(max(re eigenvalue_i, 0) / m)`, the two standard-normal
draws being consumed index-major, real part first then imaginary part, so
the cursor advances by exactly two per index; accordingly the engine
transforms the spec-side `randomizedEntries` of its eigenvalue sequence
and consumes exactly `2m` draws. -/
theorem randomization_step (forward : Transform) (cov : ℕ → ℝ) (n : ℕ) (eigen : List ℂ)
    (g : ℕ → ℝ) (p : ℕ) (hF : TransformContract forward) :
    gaussian.randomize false g (1 / ((2 * n : ℕ) : ℝ)) eigen p
      = (some (spec.randomizedEntries (2 * n) eigen g p), p + 2 * eigen.length)
  ∧ gaussian.circulant_embedding forward false cov n g p
      = (some (forward
          (spec.randomizedEntries (2 * n) (gaussian.eigenvalues forward cov n) g p)
          ((1 + n) + (1 + n) - 2) (chirp ((1 + n) + (1 + n) - 2)) ⟨1, 0⟩),
         p + 2 * ((1 + n) + (1 + n) - 2)) := by
  have key : ∀ (e : List ℂ) (pp : ℕ),
      gaussian.randomize false g (1 / ((2 * n : ℕ) : ℝ)) e pp
        = (some (spec.randomizedEntries (2 * n) e g pp), pp + 2 * e.length) := by
    intro e pp
    obtain ⟨out, hout, hlen, hpt⟩ :=
      randomize_false_parts g (1 / ((2 * n : ℕ) : ℝ)) e pp
    have hlist : out = spec.randomizedEntries (2 * n) e g pp := by
      refine List.ext_getElem ?_ ?_
      · simp [spec.randomizedEntries, hlen]
      · intro i h1 h2
        have h3 : i < e.length := by rw [← hlen]; exact h1
        rw [← List.getD_eq_getElem out 0 h1, hpt i h3]
        simp only [spec.randomizedEntries, List.getElem_map, List.getElem_range]
        rw [mul_one_div]
    rw [hout, hlist]
  refine ⟨key eigen p, ?_⟩
  simp only [gaussian.circulant_embedding]
  rw [key _ p]
  have hE : (forward ((gaussian.buildBuffer cov n).map (fun x => (x : ℂ)))
      ((1 + n) + (1 + n) - 2) (chirp ((1 + n) + (1 + n) - 2)) ⟨1, 0⟩).length
      = (1 + n) + (1 + n) - 2 := hF _ _ _ _
  rw [hE]
  rfl

theorem randomization_step_witness :
    gaussian.randomize false (fun k => 0) (1 / ((2 * 1 : ℕ) : ℝ)) [1, 1] 0
      = (some (spec.randomizedEntries (2 * 1) [1, 1] (fun k => 0) 0),
         0 + 2 * ([1, 1] : List ℂ).length)
  ∧ gaussian.circulant_embedding (fun input m rot sc => List.replicate m 1) false
        (fun k => 1) 1 (fun k => 0) 0
      = (some (List.replicate ((1 + 1) + (1 + 1) - 2) 1),
         0 + 2 * ((1 + 1) + (1 + 1) - 2)) :=
  randomization_step (fun input m rot sc => List.replicate m 1) (fun k => 1) 1 [1, 1]
    (fun k => 0) 0 (fun input m rot sc => List.length_replicate m 1)

/-- Claim C2: whenever some eigenvalue of the embedding violates the
spectral tolerance (real part more negative than -1e-10, or imaginary
part of magnitude at least 1e-10), the engine with the assertions enabled
aborts and produces no output sequence. -/
theorem embedding_aborts_on_bad_spectrum (forward : Transform) (cov : ℕ → ℝ) (n : ℕ)
    (g : ℕ → ℝ) (p : ℕ) (x : ℂ) (hx : x ∈ gaussian.eigenvalues forward cov n)
    (hbad : x.re < -EPSILON ∨ EPSILON ≤ |x.im|) :
    (gaussian.circulant_embedding forward true cov n g p).1 = none := by
  have hb2 : x.re ≤ -EPSILON ∨ EPSILON ≤ |x.im| := by
    rcases hbad with h | h
    · exact Or.inl h.le
    · exact Or.inr h
  have h1 := randomize_true_none g (1 / ((2 * n : ℕ) : ℝ))
      (gaussian.eigenvalues forward cov n) p x hx hb2
  simp only [gaussian.eigenvalues] at h1
  simp only [gaussian.circulant_embedding]
  rcases hr : gaussian.randomize true g (1 / ((2 * n : ℕ) : ℝ))
      (forward ((gaussian.buildBuffer cov n).map (fun x => (x : ℂ)))
        ((1 + n) + (1 + n) - 2) (chirp ((1 + n) + (1 + n) - 2)) ⟨1, 0⟩) p with ⟨o, q⟩
  rw [hr] at h1
  cases o with
  | none => rfl
  | some rnd => simp at h1

theorem embedding_aborts_witness :
    (gaussian.circulant_embedding (fun input m rot sc => List.replicate m ⟨-1, 0⟩) true
      (fun k => 0) 1 (fun k => 0) 0).1 = none :=
  embedding_aborts_on_bad_spectrum (fun input m rot sc => List.replicate m ⟨-1, 0⟩)
    (fun k => 0) 1 (fun k => 0) 0 ⟨-1, 0⟩
    (by simp [gaussian.eigenvalues])
    (Or.inl (by simp only [EPSILON]; norm_num))

/-- The buffer-filling loop of the engine, after `k ≤ n` iterations:
length is preserved, positions `0..k` hold `cov`, and the mirrored
positions `m - j` for `1 ≤ j ≤ k` hold `cov j`. -/
theorem fold_fill_spec (cov : ℕ → ℝ) (n m : ℕ) (hn : 1 ≤ n) (hm : m = 2 * n) :
    ∀ k, k ≤ n → ∀ d, d = (List.range' 1 k).foldl (gaussian.fillStep m cov)
        ((List.replicate m (0 : ℝ)).set 0 (cov 0)) →
      d.length = m
    ∧ (∀ j, j ≤ k → d.getD j 0 = cov j)
    ∧ (∀ j, 1 ≤ j → j ≤ k → d.getD (m - j) 0 = cov j) := by
  intro k
  induction k with
  | zero =>
    intro hk d hd
    subst hd
    refine ⟨by simp, ?_, ?_⟩
    · intro j hj
      have hj0 : j = 0 := by omega
      subst hj0
      have h0m : 0 < (List.replicate m (0 : ℝ)).length := by
        rw [List.length_replicate]
        omega
      exact set_getD_same _ 0 _ 0 h0m
    · intro j h1 h2
      omega
  | succ k ih =>
    intro hk d hd
    obtain ⟨L, S, T⟩ := ih (by omega) _ rfl
    subst hd
    rw [List.range'_concat, List.foldl_append, List.foldl_cons, List.foldl_nil]
    set dk := (List.range' 1 k).foldl (gaussian.fillStep m cov)
        ((List.replicate m (0 : ℝ)).set 0 (cov 0)) with hdk
    simp only [gaussian.fillStep]
    have hi : 1 + 1 * k < m := by omega
    have hilen : 1 + 1 * k < dk.length := by rw [L]; exact hi
    rw [set_getD_same dk (1 + 1 * k) (cov (1 + 1 * k)) 0 hilen]
    refine ⟨by simp [L], ?_, ?_⟩
    · intro j hj
      by_cases hj2 : m - (1 + 1 * k) = j
      · have hji : j = 1 + 1 * k := by omega
        subst hji
        rw [hj2]
        exact set_getD_same _ _ _ 0 (by simp only [List.length_set, L]; omega)
      · rw [set_getD_other _ (m - (1 + 1 * k)) j _ 0 hj2]
        by_cases hj3 : j = 1 + 1 * k
        · rw [hj3]
          exact set_getD_same dk _ _ 0 hilen
        · rw [set_getD_other dk (1 + 1 * k) j _ 0 (fun hh => hj3 hh.symm)]
          exact S j (by omega)
    · intro j h1 h2
      by_cases hj : j = 1 + 1 * k
      · rw [hj]
        exact set_getD_same _ _ _ 0 (by simp only [List.length_set, L]; omega)
      · rw [set_getD_other _ (m - (1 + 1 * k)) (m - j) _ 0 (by omega)]
        rw [set_getD_other dk (1 + 1 * k) (m - j) _ 0 (by omega)]
        exact T j h1 (by omega)

/-- Claim C4: for n ≥ 1 the engine's real buffer has length m = 2n and,
just before the first transform, buffer[0] = cov(0), buffer[i] = cov(i)
for 1 ≤ i ≤ n, and the symmetric reflection buffer[m - i] = buffer[i]. -/
theorem buffer_spec (cov : ℕ → ℝ) (n : ℕ) (hn : 1 ≤ n) :
    (gaussian.buildBuffer cov n).length = 2 * n
  ∧ (gaussian.buildBuffer cov n).getD 0 0 = cov 0
  ∧ ∀ i, 1 ≤ i → i ≤ n →
      (gaussian.buildBuffer cov n).getD i 0 = cov i
    ∧ (gaussian.buildBuffer cov n).getD (2 * n - i) 0
        = (gaussian.buildBuffer cov n).getD i 0 := by
  obtain ⟨L, S, T⟩ := fold_fill_spec cov n ((1 + n) + (1 + n) - 2) hn (by omega) n le_rfl
      (gaussian.buildBuffer cov n) rfl
  refine ⟨by rw [L]; omega, S 0 (by omega), ?_⟩
  intro i h1 h2
  refine ⟨S i h2, ?_⟩
  rw [show 2 * n - i = (1 + n) + (1 + n) - 2 - i from by omega]
  rw [T i h1 h2, S i h2]

theorem buffer_spec_witness :
    (gaussian.buildBuffer (fun k => (k : ℝ)) 2).length = 2 * 2
  ∧ (gaussian.buildBuffer (fun k => (k : ℝ)) 2).getD 0 0 = ((0 : ℕ) : ℝ)
  ∧ ∀ i, 1 ≤ i → i ≤ 2 →
      (gaussian.buildBuffer (fun k => (k : ℝ)) 2).getD i 0 = (i : ℝ)
    ∧ (gaussian.buildBuffer (fun k => (k : ℝ)) 2).getD (2 * 2 - i) 0
        = (gaussian.buildBuffer (fun k => (k : ℝ)) 2).getD i 0 :=
  buffer_spec (fun k => (k : ℝ)) 2 (by norm_num)

/-- The cumulative-sum loop of `Motion::sample` after `k` iterations:
position 0 still holds the origin, positions `1..k+1` hold prefix sums of
the increments, and later positions still hold raw increments. -/
theorem cum_loop (noise : List ℝ) (points : ℕ) (h2 : 2 ≤ points)
    (hlen : noise.length = points - 1) :
    ∀ k, k ≤ points - 2 →
    ∀ d, d = (List.range' 2 k).foldl fractional.cumStep ((0 : ℝ) :: noise) →
      d.length = points
    ∧ d.getD 0 0 = 0
    ∧ (∀ j, 1 ≤ j → j ≤ k + 1 → d.getD j 0 = (noise.take j).sum)
    ∧ (∀ j, k + 1 < j → d.getD j 0 = noise.getD (j - 1) 0) := by
  intro k
  induction k with
  | zero =>
    intro hk d hd
    subst hd
    refine ⟨by simp; omega, by simp, ?_, ?_⟩
    · intro j h1 hj
      have hj1 : j = 1 := by omega
      subst hj1
      have hlt : 0 < noise.length := by omega
      show ((0 : ℝ) :: noise).getD 1 0 = (noise.take 1).sum
      rw [show ((0 : ℝ) :: noise).getD 1 0 = noise.getD 0 0 from List.getD_cons_succ]
      rw [List.getD_eq_getElem noise 0 hlt, List.sum_take_succ noise 0 hlt]
      simp
    · intro j hj
      obtain ⟨jj, rfl⟩ : ∃ jj, j = jj + 1 := ⟨j - 1, by omega⟩
      simp [List.getD_cons_succ]
  | succ k ih =>
    intro hk d hd
    obtain ⟨L, Z, S, U⟩ := ih (by omega) _ rfl
    subst hd
    rw [List.range'_concat, List.foldl_append, List.foldl_cons, List.foldl_nil]
    set dk := (List.range' 2 k).foldl fractional.cumStep ((0 : ℝ) :: noise) with hdk
    simp only [fractional.cumStep]
    have hcur : dk.getD (2 + 1 * k) 0 = noise.getD (2 + 1 * k - 1) 0 :=
      U (2 + 1 * k) (by omega)
    have hprev : dk.getD (2 + 1 * k - 1) 0 = (noise.take (2 + 1 * k - 1)).sum :=
      S (2 + 1 * k - 1) (by omega) (by omega)
    have hlt2 : k + 1 < noise.length := by omega
    have hval : noise.getD (2 + 1 * k - 1) 0 + (noise.take (2 + 1 * k - 1)).sum
        = (noise.take (k + 2)).sum := by
      rw [show 2 + 1 * k - 1 = k + 1 from by omega]
      rw [List.getD_eq_getElem noise 0 hlt2, List.sum_take_succ noise (k + 1) hlt2]
      ring
    rw [hcur, hprev, hval]
    have hidx : 2 + 1 * k < dk.length := by rw [L]; omega
    refine ⟨by simp [L], ?_, ?_, ?_⟩
    · rw [set_getD_other dk (2 + 1 * k) 0 _ 0 (by omega)]
      exact Z
    · intro j h1 hj
      by_cases hj2 : j = 2 + 1 * k
      · rw [hj2, set_getD_same dk (2 + 1 * k) _ 0 hidx]
        rw [show (2 : ℕ) + 1 * k = k + 2 from by omega]
      · rw [set_getD_other dk (2 + 1 * k) j _ 0 (fun hh => hj2 hh.symm)]
        exact S j h1 (by omega)
    · intro j hj
      rw [set_getD_other dk (2 + 1 * k) j _ 0 (by omega)]
      exact U j (by omega)

/-- When the engine succeeds, its output has the full embedding length
`m = (1 + n) + (1 + n) - 2`, given the transform's length contract. -/
theorem embedding_some_length (forward : Transform) (debug : Bool) (cov : ℕ → ℝ)
    (n : ℕ) (g : ℕ → ℝ) (p : ℕ) (out : List ℂ) (q : ℕ) (hF : TransformContract forward)
    (h : gaussian.circulant_embedding forward debug cov n g p = (some out, q)) :
    out.length = (1 + n) + (1 + n) - 2 := by
  simp only [gaussian.circulant_embedding] at h
  rcases hr : gaussian.randomize debug g (1 / ((2 * n : ℕ) : ℝ))
      (forward ((gaussian.buildBuffer cov n).map (fun x => (x : ℂ)))
        ((1 + n) + (1 + n) - 2) (chirp ((1 + n) + (1 + n) - 2)) ⟨1, 0⟩) p with ⟨o, qq⟩
  rw [hr] at h
  cases o with
  | none => simp at h
  | some rnd =>
    simp only [Prod.mk.injEq, Option.some.injEq] at h
    rw [← h.1]
    exact hF _ _ _ _

/-- A successful noise sample has exactly the requested number of points,
given the transform's length contract. -/
theorem noise_sample_length (forward : Transform) (debug : Bool)
    (self : fractional.Noise) (count : ℕ) (g : ℕ → ℝ) (p : ℕ) (noise : List ℝ) (q : ℕ)
    (hF : TransformContract forward) (hc : 1 ≤ count)
    (hs : fractional.Noise.sample forward debug self count g p = (some noise, q)) :
    noise.length = count := by
  match count, hc with
  | 1, _ =>
    have h1 : fractional.Noise.sample forward debug self 1 g p
        = (some [gaussianSample 0 (Real.sqrt (fractional.Noise.var self)) (g p)], p + 1) :=
      rfl
    rw [h1] at hs
    simp only [Prod.mk.injEq, Option.some.injEq] at hs
    rw [← hs.1]
    rfl
  | c + 2, _ =>
    have h1 : fractional.Noise.sample forward debug self (c + 2) g p
        = match gaussian.circulant_embedding forward debug (fractional.Noise.cov self)
            (c + 2 - 1) g p with
          | (some data, qq) => (some ((data.take (c + 2)).map Complex.re), qq)
          | (none, qq) => (none, qq) := rfl
    rw [h1] at hs
    rcases he : gaussian.circulant_embedding forward debug (fractional.Noise.cov self)
        (c + 2 - 1) g p with ⟨o, qq⟩
    rw [he] at hs
    cases o with
    | none => simp at hs
    | some data =>
      have hd : data.length = (1 + (c + 2 - 1)) + (1 + (c + 2 - 1)) - 2 :=
        embedding_some_length forward debug (fractional.Noise.cov self) (c + 2 - 1) g p
          data qq hF he
      simp only [Prod.mk.injEq, Option.some.injEq] at hs
      rw [← hs.1]
      simp only [List.length_map, List.length_take]
      omega

/-- Claim C6: for points ≥ 2, the fractional-Brownian-motion sample is the
increment path of length points - 1 prefixed with 0.0 and cumulatively
summed: entry 0 is 0.0, and entry i (1 ≤ i < points) is the sum of the
first i increments (so entry 1 is the first increment, unmodified). -/
theorem motion_sample_cumsum (forward : Transform) (debug : Bool) (H st : ℝ)
    (points : ℕ) (g : ℕ → ℝ) (p : ℕ) (hF : TransformContract forward)
    (h2 : 2 ≤ points) :
    fractional.Motion.sample forward debug ⟨H⟩ points st g p =
      match fractional.Noise.sample forward debug ⟨H, st⟩ (points - 1) g p with
      | (some noise, q) =>
          (some ((List.range points).map fun i =>
            if i = 0 then 0 else (noise.take i).sum), q)
      | (none, q) => (none, q) := by
  obtain ⟨c, rfl⟩ : ∃ c, points = c + 2 := ⟨points - 2, by omega⟩
  have hunf : fractional.Motion.sample forward debug ⟨H⟩ (c + 2) st g p =
      match fractional.Noise.sample forward debug ⟨H, st⟩ (c + 2 - 1) g p with
      | (some noise, q) =>
          (some ((List.range' 2 (c + 2 - 2)).foldl fractional.cumStep ((0 : ℝ) :: noise)), q)
      | (none, q) => (none, q) := rfl
  rw [hunf]
  rcases hs : fractional.Noise.sample forward debug ⟨H, st⟩ (c + 2 - 1) g p with ⟨o, q⟩
  cases o with
  | none => rfl
  | some noise =>
    have hlen : noise.length = (c + 2) - 1 := by
      have := noise_sample_length forward debug ⟨H, st⟩ (c + 2 - 1) g p noise q hF
        (by omega) hs
      omega
    obtain ⟨L, Z, S, U⟩ := cum_loop noise (c + 2) (by omega) hlen (c + 2 - 2) (by omega)
        _ rfl
    have hAB : (List.range' 2 (c + 2 - 2)).foldl fractional.cumStep ((0 : ℝ) :: noise)
        = (List.range (c + 2)).map fun i => if i = 0 then 0 else (noise.take i).sum := by
      refine List.ext_getElem ?_ ?_
      · rw [L]
        simp
      · intro i h1a h2a
        rw [← List.getD_eq_getElem _ 0 h1a]
        simp only [List.getElem_map, List.getElem_range]
        match i with
        | 0 => simpa using Z
        | j + 1 =>
          have hj : j + 1 ≤ (c + 2 - 2) + 1 := by
            rw [L] at h1a
            omega
          simp only [if_neg (Nat.succ_ne_zero j)]
          exact S (j + 1) (by omega) hj
    show (some ((List.range' 2 (c + 2 - 2)).foldl fractional.cumStep ((0 : ℝ) :: noise)), q)
        = (some ((List.range (c + 2)).map fun i => if i = 0 then 0 else (noise.take i).sum), q)
    rw [hAB]

theorem motion_sample_cumsum_witness :
    fractional.Motion.sample (fun input m rot sc => List.replicate m 0) false ⟨1 / 2⟩ 3 1
        (fun k => 0) 0 =
      match fractional.Noise.sample (fun input m rot sc => List.replicate m 0) false
          ⟨1 / 2, 1⟩ (3 - 1) (fun k => 0) 0 with
      | (some noise, q) =>
          (some ((List.range 3).map fun i => if i = 0 then 0 else (noise.take i).sum), q)
      | (none, q) => (none, q) :=
  motion_sample_cumsum (fun input m rot sc => List.replicate m 0) false (1 / 2) 1 3
    (fun k => 0) 0 (fun input m rot sc => List.length_replicate m 0) (by norm_num)

/-- Claim C10: with n ≥ 1 every buffer index the engine touches is within
bounds — the buffer is nonempty, the filling loop's indices i and m - i
(1 ≤ i ≤ n) are below its length, and the randomization loop's indices
0 ≤ i < m are below the transform output's length — while n = 0 would
produce an empty buffer whose write data[0] is out of bounds; the public
sampling operations establish n ≥ 1: counts 0 and 1 are engine-free, and
count ≥ 2 invokes the engine with n = count - 1 ≥ 1 (motion delegates to
noise sampling with points - 1 ≥ 1 points). -/
theorem access_bounds (cov : ℕ → ℝ) (n : ℕ) (hn : 1 ≤ n) :
    0 < (gaussian.buildBuffer cov n).length
  ∧ (∀ i, 1 ≤ i → i ≤ n →
      i < (gaussian.buildBuffer cov n).length
      ∧ (1 + n) + (1 + n) - 2 - i < (gaussian.buildBuffer cov n).length)
  ∧ (gaussian.buildBuffer cov 0).length = 0
  ∧ (∀ forward : Transform, TransformContract forward →
      ∀ rot sc input i, i < (1 + n) + (1 + n) - 2 →
        i < (forward input ((1 + n) + (1 + n) - 2) rot sc).length)
  ∧ (∀ (forward : Transform) (debug : Bool) (self : fractional.Noise) (count : ℕ)
        (g : ℕ → ℝ) (p : ℕ), 2 ≤ count →
      1 ≤ count - 1
      ∧ fractional.Noise.sample forward debug self count g p =
          (match gaussian.circulant_embedding forward debug (fractional.Noise.cov self)
              (count - 1) g p with
           | (some data, q) => (some ((data.take count).map Complex.re), q)
           | (none, q) => (none, q)))
  ∧ (∀ (forward : Transform) (debug : Bool) (self : fractional.Noise)
        (g : ℕ → ℝ) (p : ℕ),
      fractional.Noise.sample forward debug self 0 g p = (some [], p)
      ∧ fractional.Noise.sample forward debug self 1 g p
          = (some [gaussianSample 0 (Real.sqrt (fractional.Noise.var self)) (g p)], p + 1))
  ∧ (∀ (forward : Transform) (debug : Bool) (mo : fractional.Motion) (points : ℕ)
        (st : ℝ) (g : ℕ → ℝ) (p : ℕ), 2 ≤ points →
      1 ≤ points - 1
      ∧ fractional.Motion.sample forward debug mo points st g p =
          (match fractional.Noise.sample forward debug ⟨mo.hurst, st⟩ (points - 1) g p with
           | (some noise, q) =>
               (some ((List.range' 2 (points - 2)).foldl fractional.cumStep
                 ((0 : ℝ) :: noise)), q)
           | (none, q) => (none, q))) := by
  obtain ⟨L, S, T⟩ := fold_fill_spec cov n ((1 + n) + (1 + n) - 2) hn (by omega) n le_rfl
      (gaussian.buildBuffer cov n) rfl
  refine ⟨by rw [L]; omega, ?_, rfl, ?_, ?_, ?_, ?_⟩
  · intro i h1 h2
    exact ⟨by rw [L]; omega, by rw [L]; omega⟩
  · intro forward hF rot sc input i hi
    rw [hF]
    exact hi
  · intro forward debug self count g p hc
    obtain ⟨k, rfl⟩ : ∃ k, count = k + 2 := ⟨count - 2, by omega⟩
    exact ⟨by omega, rfl⟩
  · intro forward debug self g p
    exact ⟨rfl, rfl⟩
  · intro forward debug mo points st g p hp
    obtain ⟨k, rfl⟩ : ∃ k, points = k + 2 := ⟨points - 2, by omega⟩
    exact ⟨by omega, rfl⟩

theorem access_bounds_witness :
    0 < (gaussian.buildBuffer (fun k => (1 : ℝ)) 1).length
  ∧ (∀ i, 1 ≤ i → i ≤ 1 →
      i < (gaussian.buildBuffer (fun k => (1 : ℝ)) 1).length
      ∧ (1 + 1) + (1 + 1) - 2 - i < (gaussian.buildBuffer (fun k => (1 : ℝ)) 1).length)
  ∧ (gaussian.buildBuffer (fun k => (1 : ℝ)) 0).length = 0
  ∧ (∀ forward : Transform, TransformContract forward →
      ∀ rot sc input i, i < (1 + 1) + (1 + 1) - 2 →
        i < (forward input ((1 + 1) + (1 + 1) - 2) rot sc).length)
  ∧ (∀ (forward : Transform) (debug : Bool) (self : fractional.Noise) (count : ℕ)
        (g : ℕ → ℝ) (p : ℕ), 2 ≤ count →
      1 ≤ count - 1
      ∧ fractional.Noise.sample forward debug self count g p =
          (match gaussian.circulant_embedding forward debug (fractional.Noise.cov self)
              (count - 1) g p with
           | (some data, q) => (some ((data.take count).map Complex.re), q)
           | (none, q) => (none, q)))
  ∧ (∀ (forward : Transform) (debug : Bool) (self : fractional.Noise)
        (g : ℕ → ℝ) (p : ℕ),
      fractional.Noise.sample forward debug self 0 g p = (some [], p)
      ∧ fractional.Noise.sample forward debug self 1 g p
          = (some [gaussianSample 0 (Real.sqrt (fractional.Noise.var self)) (g p)], p + 1))
  ∧ (∀ (forward : Transform) (debug : Bool) (mo : fractional.Motion) (points : ℕ)
        (st : ℝ) (g : ℕ → ℝ) (p : ℕ), 2 ≤ points →
      1 ≤ points - 1
      ∧ fractional.Motion.sample forward debug mo points st g p =
          (match fractional.Noise.sample forward debug ⟨mo.hurst, st⟩ (points - 1) g p with
           | (some noise, q) =>
               (some ((List.range' 2 (points - 2)).foldl fractional.cumStep
                 ((0 : ℝ) :: noise)), q)
           | (none, q) => (none, q))) :=
  access_bounds (fun k => (1 : ℝ)) 1 (by norm_num)

end Stochastic
